import Mathlib

/-!
Formal model of the Bloom filter implementation in `src/bloom_filter.py`
(class `BloomFilter`), as a shallow embedding.

Modelling choices:
* Python float arithmetic in the sizing formulas is idealised as exact real
  arithmetic; `int(·)` is truncation toward zero (`truncInt`).
* `hashlib.sha256` composed with `hexdigest` and `int(·, 16)` is a fixed but
  arbitrary function `sha : String → Nat`; Python `repr` is a fixed but
  arbitrary function `rep : α → String`.  Every theorem below holds for all
  such functions, hence in particular for the real SHA-256 and `repr`.
* Python exceptions are modelled with `Option` (for operations) and
  `Except` (for the constructor): `none` / `Except.error` means the call
  raises.  In particular `x % 0` raises `ZeroDivisionError` in Python, so
  `_hash` yields `none` when `size = 0`, and out-of-range indexing yields
  `none`.
-/

/-- Python `int(x)` on a real value: truncation toward zero. -/
noncomputable def truncInt (x : ℝ) : ℤ := if 0 ≤ x then ⌊x⌋ else ⌈x⌉

/-- The state of a `BloomFilter` instance: its four instance attributes. -/
structure BloomFilter where
  size : Nat
  hash_count : Nat
  bit_array : List Bool
  element_count : Nat
deriving DecidableEq

/-- Models `BloomFilter._calculate_size`:
`m = -(n * math.log(p)) / (math.log(2) ** 2); return int(m)`. -/
noncomputable def _calculate_size (n : ℤ) (p : ℚ) : ℤ :=
  truncInt (-((n : ℝ) * Real.log (p : ℝ)) / (Real.log 2) ^ 2)

/-- Models `BloomFilter._calculate_hash_count`:
`k = (m / n) * math.log(2); return max(1, int(k))`. -/
noncomputable def _calculate_hash_count (m n : ℤ) : ℤ :=
  max 1 (truncInt (((m : ℝ) / (n : ℝ)) * Real.log 2))

/-- Models `BloomFilter.__init__(expected_elements, false_positive_rate)`:
validation first (raising `ValueError`, modelled as `Except.error`), then the
two sizing computations, then allocation of `[False] * size` and the zero
counter. -/
noncomputable def init (expected_elements : ℤ) (false_positive_rate : ℚ) :
    Except String BloomFilter :=
  if expected_elements ≤ 0 then
    Except.error "Expected elements must be positive"
  else if ¬(0 < false_positive_rate ∧ false_positive_rate < 1) then
    Except.error "False positive rate must be between 0 and 1"
  else
    let m := _calculate_size expected_elements false_positive_rate
    let k := _calculate_hash_count m expected_elements
    Except.ok ⟨m.toNat, k.toNat, List.replicate m.toNat false, 0⟩

/-- Models `BloomFilter._hash(item, seed)`:
`int(sha256(repr(item).encode + str(seed).encode).hexdigest(), 16) % self.size`.
When `size = 0` the Python `%` raises `ZeroDivisionError`, hence `none`. -/
def _hash {α : Type} (sha : String → Nat) (rep : α → String)
    (bf : BloomFilter) (item : α) (seed : Nat) : Option Nat :=
  if bf.size = 0 then none
  else some (sha (rep item ++ toString seed) % bf.size)

/-- Models the statement `self.bit_array[index] = True`; an out-of-range
index raises `IndexError`, hence `none`. -/
def setBit (arr : List Bool) (idx : Nat) : Option (List Bool) :=
  if idx < arr.length then some (arr.set idx true) else none

/-- Models `BloomFilter.add(item)`: for `i in range(self.hash_count)` set the
bit at `self._hash(item, i)`, then `self.element_count += 1`. -/
def add {α : Type} (sha : String → Nat) (rep : α → String)
    (bf : BloomFilter) (item : α) : Option BloomFilter :=
  ((List.range bf.hash_count).foldlM
      (fun arr i => (_hash sha rep bf item i).bind (setBit arr)) bf.bit_array).map
    (fun arr => { bf with bit_array := arr, element_count := bf.element_count + 1 })

/-- The loop of `BloomFilter.contains`, short-circuiting at the first false
bit.  `start` is the next seed to probe and `fuel` the number of seeds left. -/
def containsAux {α : Type} (sha : String → Nat) (rep : α → String)
    (bf : BloomFilter) (item : α) : Nat → Nat → Option Bool
  | _, 0 => some true
  | start, fuel + 1 =>
    (_hash sha rep bf item start).bind fun idx =>
      (bf.bit_array[idx]?).bind fun b =>
        if b then containsAux sha rep bf item (start + 1) fuel else some false

/-- Models `BloomFilter.contains(item)`. -/
def contains {α : Type} (sha : String → Nat) (rep : α → String)
    (bf : BloomFilter) (item : α) : Option Bool :=
  containsAux sha rep bf item 0 bf.hash_count

/-- Models `BloomFilter.__contains__(item)`: `return self.contains(item)`. -/
def memOp {α : Type} (sha : String → Nat) (rep : α → String)
    (bf : BloomFilter) (item : α) : Option Bool :=
  contains sha rep bf item

/-- Models `BloomFilter.clear()`:
`self.bit_array = [False] * self.size; self.element_count = 0`. -/
def clear (bf : BloomFilter) : BloomFilter :=
  { bf with bit_array := List.replicate bf.size false, element_count := 0 }

/-- The record returned by `BloomFilter.get_stats`. -/
structure Stats where
  size : Nat
  hash_count : Nat
  element_count : Nat
  bits_set : Nat
  load_factor : ℚ
  estimated_false_positive_rate : ℝ

/-- Models `BloomFilter.get_stats()`. -/
noncomputable def get_stats (bf : BloomFilter) : Stats :=
  let bits_set := bf.bit_array.count true
  { size := bf.size
    hash_count := bf.hash_count
    element_count := bf.element_count
    bits_set := bits_set
    load_factor := if 0 < bf.size then (bits_set : ℚ) / (bf.size : ℚ) else 0
    estimated_false_positive_rate :=
      if 0 < bf.size ∧ 0 < bf.element_count then
        (1 - Real.exp (-(bf.hash_count : ℝ) * (bf.element_count : ℝ) / (bf.size : ℝ)))
          ^ bf.hash_count
      else 0 }

/-- The loop of `contains` with the instance state threaded explicitly: each
step reads `self` but never assigns to any of its attributes, and an
exception (`none` result) also leaves the state as it was. -/
def containsAuxSt {α : Type} (sha : String → Nat) (rep : α → String) (item : α) :
    Nat → Nat → BloomFilter → Option Bool × BloomFilter
  | _, 0, bf => (some true, bf)
  | start, fuel + 1, bf =>
    match _hash sha rep bf item start with
    | none => (none, bf)
    | some idx =>
      match bf.bit_array[idx]? with
      | none => (none, bf)
      | some b =>
        if b then containsAuxSt sha rep item (start + 1) fuel bf
        else (some false, bf)

/-- `contains` with the instance state threaded explicitly. -/
def containsSt {α : Type} (sha : String → Nat) (rep : α → String)
    (bf : BloomFilter) (item : α) : Option Bool × BloomFilter :=
  containsAuxSt sha rep item 0 bf.hash_count bf

/-- `get_stats` with the instance state threaded explicitly: its body only
reads `self.size`, `self.hash_count`, `self.bit_array`, `self.element_count`. -/
noncomputable def get_statsSt (bf : BloomFilter) : Stats × BloomFilter :=
  (get_stats bf, bf)

/-- A sequence of `add` calls (no intervening `clear`). -/
def addAll {α : Type} (sha : String → Nat) (rep : α → String)
    (bf : BloomFilter) (items : List α) : Option BloomFilter :=
  items.foldlM (add sha rep) bf

/-- Modelled from the spec: the direct-parameter construction path
`(size, hash_count)` described in spec §6/§7 belongs to the repository's
second variant implementation (spec §2 counts two variants) and is absent
from `src/bloom_filter.py`, which only offers the derived path.  Faithful to
the spec's words: it fixes the two fields as given and raises
`InvalidParameter` when `size <= 0` or `hash_count < 1`. -/
def initDirect (size : ℤ) (hash_count : ℤ) : Except String BloomFilter :=
  if size ≤ 0 then Except.error "InvalidParameter: size must be positive"
  else if hash_count < 1 then Except.error "InvalidParameter: hash count must be at least 1"
  else Except.ok ⟨size.toNat, hash_count.toNat, List.replicate size.toNat false, 0⟩

/-- A concrete stand-in for the abstract digest function, used in witnesses. -/
def shaC : String → Nat := fun _ => 5

/-- A concrete stand-in for Python `repr` on strings, used in witnesses. -/
def repC : String → String := fun s => s

/-- A concrete `repr` stand-in on `Nat` that collapses all values, used in the
witness for the repr-determinism claim. -/
def repN : Nat → String := fun _ => "same"

/-! ## Helper lemmas about `setBit` and the loop of `add` -/

theorem setBit_length {arr arr' : List Bool} {i : Nat}
    (h : setBit arr i = some arr') : arr'.length = arr.length := by
  unfold setBit at h
  by_cases hlt : i < arr.length
  · rw [if_pos hlt] at h
    cases h
    simp
  · rw [if_neg hlt] at h
    exact Option.noConfusion h

theorem setBit_true_mono {arr arr' : List Bool} {i j : Nat}
    (h : setBit arr i = some arr') (hj : arr[j]? = some true) :
    arr'[j]? = some true := by
  unfold setBit at h
  by_cases hlt : i < arr.length
  · rw [if_pos hlt] at h
    cases h
    rcases eq_or_ne i j with rfl | hne
    · exact List.getElem?_set_self hlt
    · rw [List.getElem?_set_ne hne]
      exact hj
  · rw [if_neg hlt] at h
    exact Option.noConfusion h

theorem setBit_sets {arr arr' : List Bool} {i : Nat}
    (h : setBit arr i = some arr') : arr'[i]? = some true := by
  unfold setBit at h
  by_cases hlt : i < arr.length
  · rw [if_pos hlt] at h
    cases h
    exact List.getElem?_set_self hlt
  · rw [if_neg hlt] at h
    exact Option.noConfusion h

theorem addLoop_length {α : Type} {sha : String → Nat} {rep : α → String}
    {bf : BloomFilter} {item : α} :
    ∀ {l : List Nat} {arr arr' : List Bool},
      l.foldlM (fun a i => (_hash sha rep bf item i).bind (setBit a)) arr = some arr' →
      arr'.length = arr.length := by
  intro l
  induction l with
  | nil =>
    intro arr arr' h
    simp only [List.foldlM_nil, pure, Option.some.injEq] at h
    rw [h]
  | cons a t ih =>
    intro arr arr' h
    rw [List.foldlM_cons] at h
    obtain ⟨arr₁, hstep, hrest⟩ := Option.bind_eq_some.mp h
    obtain ⟨idx, _, hset⟩ := Option.bind_eq_some.mp hstep
    exact (ih hrest).trans (setBit_length hset)

theorem addLoop_true_mono {α : Type} {sha : String → Nat} {rep : α → String}
    {bf : BloomFilter} {item : α} :
    ∀ {l : List Nat} {arr arr' : List Bool},
      l.foldlM (fun a i => (_hash sha rep bf item i).bind (setBit a)) arr = some arr' →
      ∀ {j : Nat}, arr[j]? = some true → arr'[j]? = some true := by
  intro l
  induction l with
  | nil =>
    intro arr arr' h j hj
    simp only [List.foldlM_nil, pure, Option.some.injEq] at h
    rw [← h]
    exact hj
  | cons a t ih =>
    intro arr arr' h j hj
    rw [List.foldlM_cons] at h
    obtain ⟨arr₁, hstep, hrest⟩ := Option.bind_eq_some.mp h
    obtain ⟨idx, _, hset⟩ := Option.bind_eq_some.mp hstep
    exact ih hrest (setBit_true_mono hset hj)

theorem addLoop_hits {α : Type} {sha : String → Nat} {rep : α → String}
    {bf : BloomFilter} {item : α} :
    ∀ {l : List Nat} {arr arr' : List Bool},
      l.foldlM (fun a i => (_hash sha rep bf item i).bind (setBit a)) arr = some arr' →
      ∀ {i : Nat}, i ∈ l →
        ∃ idx, _hash sha rep bf item i = some idx ∧ arr'[idx]? = some true := by
  intro l
  induction l with
  | nil =>
    intro arr arr' _ i hi
    exact absurd hi (List.not_mem_nil i)
  | cons a t ih =>
    intro arr arr' h i hi
    rw [List.foldlM_cons] at h
    obtain ⟨arr₁, hstep, hrest⟩ := Option.bind_eq_some.mp h
    obtain ⟨idx, hhash, hset⟩ := Option.bind_eq_some.mp hstep
    rcases List.mem_cons.mp hi with rfl | hmem
    · exact ⟨idx, hhash, addLoop_true_mono hrest (setBit_sets hset)⟩
    · exact ih hrest hmem

/-- Everything `add` guarantees when it returns normally: the two structural
constants are untouched, the counter goes up by exactly one, the bit array
keeps its length, true bits stay true, and the probed index of every seed
below `hash_count` ends up set. -/
theorem add_eq_some {α : Type} {sha : String → Nat} {rep : α → String}
    {bf bf' : BloomFilter} {item : α} (h : add sha rep bf item = some bf') :
    bf'.size = bf.size ∧ bf'.hash_count = bf.hash_count ∧
    bf'.element_count = bf.element_count + 1 ∧
    bf'.bit_array.length = bf.bit_array.length ∧
    (∀ {j : Nat}, bf.bit_array[j]? = some true → bf'.bit_array[j]? = some true) ∧
    (∀ {i : Nat}, i < bf.hash_count →
      ∃ idx, _hash sha rep bf item i = some idx ∧ bf'.bit_array[idx]? = some true) := by
  unfold add at h
  obtain ⟨arr', hfold, hmk⟩ := Option.map_eq_some'.mp h
  rw [← hmk]
  refine ⟨rfl, rfl, rfl, addLoop_length hfold, ?_, ?_⟩
  · intro j hj
    exact addLoop_true_mono hfold hj
  · intro i hi
    exact addLoop_hits hfold (List.mem_range.mpr hi)

/-! ## Helper lemmas about `contains` -/

theorem containsAux_all_true {α : Type} {sha : String → Nat} {rep : α → String}
    {bf : BloomFilter} {item : α} :
    ∀ {fuel start : Nat},
      (∀ j, j < fuel → ∃ idx, _hash sha rep bf item (start + j) = some idx ∧
        bf.bit_array[idx]? = some true) →
      containsAux sha rep bf item start fuel = some true := by
  intro fuel
  induction fuel with
  | zero => intro start _; rfl
  | succ n ih =>
    intro start h
    obtain ⟨idx, hh, hb⟩ := h 0 (Nat.succ_pos n)
    rw [Nat.add_zero] at hh
    have hrec : containsAux sha rep bf item (start + 1) n = some true := by
      apply ih
      intro j hj
      have := h (j + 1) (by omega)
      rwa [show start + (j + 1) = start + 1 + j by omega] at this
    show (_hash sha rep bf item start).bind _ = some true
    rw [hh, Option.some_bind, hb, Option.some_bind, if_pos rfl]
    exact hrec

theorem contains_all_true {α : Type} {sha : String → Nat} {rep : α → String}
    {bf : BloomFilter} {item : α}
    (h : ∀ i, i < bf.hash_count → ∃ idx, _hash sha rep bf item i = some idx ∧
      bf.bit_array[idx]? = some true) :
    contains sha rep bf item = some true := by
  apply containsAux_all_true
  intro j hj
  simpa using h j hj

theorem _hash_congr_size {α : Type} {sha : String → Nat} {rep : α → String}
    {bf bf' : BloomFilter} (h : bf'.size = bf.size) (item : α) (seed : Nat) :
    _hash sha rep bf' item seed = _hash sha rep bf item seed := by
  unfold _hash
  rw [h]

theorem containsAux_congr_hash {α : Type} {sha : String → Nat} {rep : α → String}
    {bf : BloomFilter} {x y : α}
    (h : ∀ seed, _hash sha rep bf x seed = _hash sha rep bf y seed) :
    ∀ fuel start, containsAux sha rep bf x start fuel =
      containsAux sha rep bf y start fuel := by
  intro fuel
  induction fuel with
  | zero => intro start; rfl
  | succ n ih =>
    intro start
    show (_hash sha rep bf x start).bind _ = (_hash sha rep bf y start).bind _
    rw [h start]
    cases _hash sha rep bf y start with
    | none => rfl
    | some idx =>
      simp only [Option.some_bind]
      cases bf.bit_array[idx]? with
      | none => rfl
      | some b =>
        cases b with
        | false => rfl
        | true => simpa using ih (start + 1)

/-! ## Helper lemmas about `addAll` and the threaded `contains` -/

theorem addAll_frame {α : Type} {sha : String → Nat} {rep : α → String} :
    ∀ {l : List α} {bf bf' : BloomFilter}, addAll sha rep bf l = some bf' →
      bf'.size = bf.size ∧ bf'.hash_count = bf.hash_count ∧
      bf'.element_count = bf.element_count + l.length ∧
      bf'.bit_array.length = bf.bit_array.length ∧
      (∀ {j : Nat}, bf.bit_array[j]? = some true → bf'.bit_array[j]? = some true) := by
  intro l
  induction l with
  | nil =>
    intro bf bf' h
    simp only [addAll, List.foldlM_nil, pure, Option.some.injEq] at h
    rw [← h]
    exact ⟨rfl, rfl, rfl, rfl, fun hj => hj⟩
  | cons a t ih =>
    intro bf bf' h
    rw [addAll, List.foldlM_cons] at h
    obtain ⟨bf₁, hadd, hrest⟩ := Option.bind_eq_some.mp h
    have h₁ := add_eq_some hadd
    have h₂ := ih hrest
    refine ⟨h₂.1.trans h₁.1, h₂.2.1.trans h₁.2.1, ?_, h₂.2.2.2.1.trans h₁.2.2.2.1, ?_⟩
    · rw [h₂.2.2.1, h₁.2.2.1]
      simp only [List.length_cons]
      omega
    · intro j hj
      exact h₂.2.2.2.2 (h₁.2.2.2.2.1 hj)

theorem containsAuxSt_spec {α : Type} {sha : String → Nat} {rep : α → String}
    (item : α) :
    ∀ (fuel start : Nat) (bf : BloomFilter),
      containsAuxSt sha rep item start fuel bf =
        (containsAux sha rep bf item start fuel, bf) := by
  intro fuel
  induction fuel with
  | zero => intro start bf; rfl
  | succ n ih =>
    intro start bf
    show (match _hash sha rep bf item start with
      | none => (none, bf)
      | some idx => _) = ((_hash sha rep bf item start).bind _, bf)
    cases _hash sha rep bf item start with
    | none => rfl
    | some idx =>
      simp only [Option.some_bind]
      cases bf.bit_array[idx]? with
      | none => rfl
      | some b =>
        cases b with
        | false => rfl
        | true =>
          simp only [if_pos rfl]
          exact ih (start + 1) bf

/-! ## The sizing computation at n = 1, p = 9/10 -/

theorem calc_size_one_ninety : _calculate_size 1 (9/10) = 0 := by
  unfold _calculate_size truncInt
  have hcast : ((((9:ℚ)/10) : ℚ) : ℝ) = 9/10 := by push_cast; norm_num
  rw [hcast, Int.cast_one, one_mul]
  have hlogle : Real.log ((9:ℝ)/10) ≤ 0 := Real.log_nonpos (by norm_num) (by norm_num)
  have hneg : -Real.log ((9:ℝ)/10) = Real.log (10/9) := by
    rw [← Real.log_inv]
    norm_num
  have hub : Real.log ((10:ℝ)/9) ≤ 1/9 := by
    have := Real.log_le_sub_one_of_pos (show (0:ℝ) < 10/9 by norm_num)
    linarith
  have hpos : (0:ℝ) < (Real.log 2)^2 := by
    nlinarith [Real.log_two_gt_d9]
  have hm0 : 0 ≤ -Real.log ((9:ℝ)/10) / (Real.log 2)^2 :=
    div_nonneg (by linarith) (le_of_lt hpos)
  have hm1 : -Real.log ((9:ℝ)/10) / (Real.log 2)^2 < 1 := by
    rw [div_lt_one hpos, hneg]
    nlinarith [Real.log_two_gt_d9]
  rw [if_pos hm0]
  exact Int.floor_eq_zero_iff.mpr ⟨hm0, hm1⟩

theorem calc_hash_count_zero_one : _calculate_hash_count 0 1 = 1 := by
  unfold _calculate_hash_count truncInt
  norm_num

/-- With the valid parameters `expected_elements = 1`,
`false_positive_rate = 0.9`, construction succeeds and returns the instance
with `size = 0`, `hash_count = 1` and an empty bit array. -/
theorem init_one_ninety : init 1 (9/10) = Except.ok ⟨0, 1, [], 0⟩ := by
  unfold init
  rw [if_neg (by norm_num), if_neg (by norm_num)]
  simp only [calc_size_one_ninety, calc_hash_count_zero_one]
  rfl

/-! ## The claims -/

/-- Claim C1: no false negatives — after any successful sequence of `add`
calls that includes `add x` (any other items before or after, duplicates
allowed, no intervening `clear`), `contains x` returns `True`.  The theorem
quantifies over every starting state and every digest/repr function, hence
in particular over every validly constructed instance. -/
theorem c1_no_false_negatives {α : Type} (sha : String → Nat) (rep : α → String)
    (bf bf' : BloomFilter) (l : List α) (x : α)
    (hx : x ∈ l) (h : addAll sha rep bf l = some bf') :
    contains sha rep bf' x = some true := by
  induction l generalizing bf with
  | nil => cases hx
  | cons a t ih =>
    rw [addAll, List.foldlM_cons] at h
    obtain ⟨bf₁, hadd, hrest⟩ := Option.bind_eq_some.mp h
    rcases List.mem_cons.mp hx with rfl | hmem
    · have h₁ := add_eq_some hadd
      have h₂ := addAll_frame (show addAll sha rep bf₁ t = some bf' from hrest)
      apply contains_all_true
      intro i hi
      have hik : i < bf.hash_count := by
        rw [h₂.2.1, h₁.2.1] at hi
        exact hi
      obtain ⟨idx, hh, hb⟩ := h₁.2.2.2.2.2 hik
      refine ⟨idx, ?_, h₂.2.2.2.2 hb⟩
      rw [_hash_congr_size (h₂.1.trans h₁.1)]
      exact hh
    · exact ih bf₁ hmem hrest

/-- Witness for C1 at a concrete instance: size 3, two hash probes, add
`"a"`, then query `"a"`. -/
theorem c1_no_false_negatives_witness :
    contains shaC repC ⟨3, 2, [false, false, true], 1⟩ "a" = some true :=
  c1_no_false_negatives shaC repC ⟨3, 2, [false, false, false], 0⟩
    ⟨3, 2, [false, false, true], 1⟩ ["a"] "a" (by decide) (by decide)

/-- Claim C2 (refuted, code bug): the valid parameters `expected_elements = 1`,
`false_positive_rate = 0.9` produce an instance whose `size` is 0, violating
the claimed invariant `size >= 1`; the flooring of degenerate sizes to 1 that
the spec requires is absent from `_calculate_size`.  (`hash_count >= 1` does
hold, via `max(1, ...)`.) -/
theorem c2_size_zero_reachable :
    ∃ bf, init 1 (9/10) = Except.ok bf ∧ bf.size = 0 ∧ 1 ≤ bf.hash_count :=
  ⟨⟨0, 1, [], 0⟩, init_one_ninety, rfl, by norm_num⟩

/-- Claim C3 (refuted, code bug): a construction that did not raise can still
return an instance — `size = 0`, from the valid parameters `(1, 0.9)` — on
which every `add`, `contains` and `in` call raises `ZeroDivisionError`
(modelled as `none`), whatever the digest function, repr and item are. -/
theorem c3_operations_raise_on_size_zero :
    init 1 (9/10) = Except.ok ⟨0, 1, [], 0⟩ ∧
    ∀ (sha : String → Nat) (rep : String → String) (item : String),
      add sha rep ⟨0, 1, [], 0⟩ item = none ∧
      contains sha rep ⟨0, 1, [], 0⟩ item = none ∧
      memOp sha rep ⟨0, 1, [], 0⟩ item = none :=
  ⟨init_one_ninety, fun _ _ _ => ⟨rfl, rfl, rfl⟩⟩

/-- Claim C4: construction returns an instance exactly when
`expected_elements > 0` and `0 < false_positive_rate < 1`; otherwise it
raises (`Except.error`) and no instance is observable. -/
theorem c4_parameter_validation (n : ℤ) (p : ℚ) :
    (∃ bf, init n p = Except.ok bf) ↔ (0 < n ∧ 0 < p ∧ p < 1) := by
  unfold init
  by_cases h1 : n ≤ 0
  · rw [if_pos h1]
    constructor
    · intro ⟨bf, h⟩
      exact absurd h (by simp)
    · intro ⟨hn, _⟩
      omega
  · rw [if_neg h1]
    by_cases h2 : 0 < p ∧ p < 1
    · rw [if_neg (not_not.mpr h2)]
      constructor
      · intro _
        exact ⟨by omega, h2⟩
      · intro _
        exact ⟨_, rfl⟩
    · rw [if_pos h2]
      constructor
      · intro ⟨bf, h⟩
        exact absurd h (by simp)
      · intro ⟨_, hp⟩
        exact absurd hp h2

/-- Claim C5: counter semantics — every successful `add` increments
`element_count` by exactly one (even when all targeted bits were already
set), a successful sequence of `n` `add` calls adds exactly `n`, and `clear`
resets the counter to 0. -/
theorem c5_counter_semantics {α : Type} (sha : String → Nat) (rep : α → String)
    (bf bf₁ bf' : BloomFilter) (x : α) (l : List α) :
    (add sha rep bf x = some bf₁ → bf₁.element_count = bf.element_count + 1) ∧
    (addAll sha rep bf l = some bf' → bf'.element_count = bf.element_count + l.length) ∧
    (clear bf).element_count = 0 :=
  ⟨fun h => (add_eq_some h).2.2.1, fun h => (addAll_frame h).2.2.1, rfl⟩

/-- Witness for C5: one add gives count 1; three adds of duplicates give
count 3. -/
theorem c5_counter_semantics_witness :
    (⟨3, 2, [false, false, true], 1⟩ : BloomFilter).element_count = 0 + 1 ∧
    (⟨3, 2, [false, false, true], 3⟩ : BloomFilter).element_count =
      0 + (["a", "a", "b"] : List String).length :=
  ⟨(c5_counter_semantics shaC repC ⟨3, 2, [false, false, false], 0⟩
      ⟨3, 2, [false, false, true], 1⟩ ⟨3, 2, [false, false, true], 3⟩
      "a" ["a", "a", "b"]).1 (by decide),
   (c5_counter_semantics shaC repC ⟨3, 2, [false, false, false], 0⟩
      ⟨3, 2, [false, false, true], 1⟩ ⟨3, 2, [false, false, true], 3⟩
      "a" ["a", "a", "b"]).2.1 (by decide)⟩

/-- Claim C6: monotonic bits — a successful `add` never turns a true bit
false, `contains` leaves the state untouched, and `clear` resets the bit
array to all-false. -/
theorem c6_monotonic_bits {α : Type} (sha : String → Nat) (rep : α → String)
    (bf bf' : BloomFilter) (x : α) :
    (add sha rep bf x = some bf' →
      ∀ j : Nat, bf.bit_array[j]? = some true → bf'.bit_array[j]? = some true) ∧
    (containsSt sha rep bf x).2 = bf ∧
    (clear bf).bit_array = List.replicate bf.size false :=
  ⟨fun h _ hj => (add_eq_some h).2.2.2.2.1 hj,
   by rw [containsSt, containsAuxSt_spec],
   rfl⟩

/-- Witness for C6: the bit at index 0 is true before an `add` and still true
after it. -/
theorem c6_monotonic_bits_witness :
    (⟨3, 2, [true, false, true], 8⟩ : BloomFilter).bit_array[0]? = some true :=
  (c6_monotonic_bits shaC repC ⟨3, 2, [true, false, false], 7⟩
    ⟨3, 2, [true, false, true], 8⟩ "a").1 (by decide) 0 (by decide)

/-- Claim C7 counterexample: a validly constructed filter (parameters
`(1, 0.9)`) on which, after `clear()`, `contains` does not return `False` —
it raises (`none`), because the instance has `size = 0`. -/
theorem c7_clear_roundtrip_counterexample :
    init 1 (9/10) = Except.ok ⟨0, 1, [], 0⟩ ∧
    contains shaC repC (clear ⟨0, 1, [], 0⟩) "x" ≠ some false :=
  ⟨init_one_ninety, by decide⟩

/-- Claim C7 as amended: for every filter with `size ≥ 1` and
`hash_count ≥ 1` (every validly constructed instance except the degenerate
`size = 0` ones exhibited above), in any state, `clear()` resets every bit to
false and the counter to 0, leaves `size` and `hash_count` unchanged,
afterwards `contains x` returns `False` for every item `x`, and `get_stats()`
agrees with a freshly constructed filter having the same `size` and
`hash_count`. -/
theorem c7_clear_roundtrip {α : Type} (sha : String → Nat) (rep : α → String)
    (bf : BloomFilter) (x : α) (hs : 1 ≤ bf.size) (hk : 1 ≤ bf.hash_count) :
    (clear bf).bit_array = List.replicate bf.size false ∧
    (clear bf).element_count = 0 ∧
    (clear bf).size = bf.size ∧
    (clear bf).hash_count = bf.hash_count ∧
    contains sha rep (clear bf) x = some false ∧
    get_stats (clear bf) =
      get_stats ⟨bf.size, bf.hash_count, List.replicate bf.size false, 0⟩ := by
  refine ⟨rfl, rfl, rfl, rfl, ?_, rfl⟩
  rw [contains]
  obtain ⟨n, hn⟩ : ∃ n, (clear bf).hash_count = n + 1 :=
    ⟨bf.hash_count - 1, by show bf.hash_count = _; omega⟩
  rw [hn]
  show (_hash sha rep (clear bf) x 0).bind _ = some false
  have hhash : _hash sha rep (clear bf) x 0 =
      some (sha (rep x ++ toString 0) % bf.size) := by
    unfold _hash
    exact if_neg (by show ¬bf.size = 0; omega)
  rw [hhash, Option.some_bind]
  have hidx : sha (rep x ++ toString 0) % bf.size < bf.size :=
    Nat.mod_lt _ (by omega)
  have harr : (clear bf).bit_array[sha (rep x ++ toString 0) % bf.size]? =
      some false := by
    show (List.replicate bf.size false)[_]? = some false
    exact List.getElem?_replicate_of_lt hidx
  rw [harr, Option.some_bind, if_neg (by simp)]

/-- Witness for the amended C7 at a concrete instance. -/
theorem c7_clear_roundtrip_witness :
    contains shaC repC (clear ⟨2, 1, [true, true], 3⟩) "x" = some false :=
  (c7_clear_roundtrip shaC repC ⟨2, 1, [true, true], 3⟩ "x"
    (by decide) (by decide)).2.2.2.2.1

/-- Claim C8 (spec-modelled): the direct-parameter construction path returns
an instance with `size` and `hash_count` fixed exactly as given precisely
when `size > 0` and `hash_count >= 1`; otherwise it raises
`InvalidParameter`. -/
theorem c8_direct_construction (size hash_count : ℤ) :
    (∃ bf, initDirect size hash_count = Except.ok bf ∧
      (bf.size : ℤ) = size ∧ (bf.hash_count : ℤ) = hash_count) ↔
    (0 < size ∧ 1 ≤ hash_count) := by
  unfold initDirect
  by_cases h1 : size ≤ 0
  · rw [if_pos h1]
    constructor
    · intro ⟨bf, h, _⟩
      exact absurd h (by simp)
    · intro ⟨hs, _⟩
      omega
  · rw [if_neg h1]
    by_cases h2 : hash_count < 1
    · rw [if_pos h2]
      constructor
      · intro ⟨bf, h, _⟩
        exact absurd h (by simp)
      · intro ⟨_, hk⟩
        omega
    · rw [if_neg h2]
      constructor
      · intro _
        constructor <;> omega
      · intro ⟨hs, hk⟩
        exact ⟨_, rfl, Int.toNat_of_nonneg (by omega), Int.toNat_of_nonneg (by omega)⟩

/-- Claim C9: queries are pure — the state component threaded through
`contains` is returned unchanged (so `size`, `hash_count`, `bit_array` and
`element_count` are all identical before and after), the result agrees with
the plain `contains`, `get_stats` likewise returns the state unchanged, and
the `in` operator is the same function as `contains`. -/
theorem c9_queries_pure {α : Type} (sha : String → Nat) (rep : α → String)
    (bf : BloomFilter) (x : α) :
    (containsSt sha rep bf x).2 = bf ∧
    (containsSt sha rep bf x).1 = contains sha rep bf x ∧
    get_statsSt bf = (get_stats bf, bf) ∧
    memOp sha rep bf x = contains sha rep bf x := by
  refine ⟨?_, ?_, rfl, rfl⟩
  · rw [containsSt, containsAuxSt_spec]
  · rw [containsSt, containsAuxSt_spec]
    rfl

/-- Claim C10: hashing is determined solely by the item's repr — items with
equal `repr` get the same index at every seed, are treated identically by
`add` and `contains`, and after a successful `add x`, `contains y` returns
`True` whenever `repr x = repr y`. -/
theorem c10_repr_determines_hash {α : Type} (sha : String → Nat)
    (rep : α → String) (bf bf' : BloomFilter) (x y : α) (hrep : rep x = rep y) :
    (∀ seed, _hash sha rep bf x seed = _hash sha rep bf y seed) ∧
    add sha rep bf x = add sha rep bf y ∧
    contains sha rep bf x = contains sha rep bf y ∧
    (add sha rep bf x = some bf' → contains sha rep bf' y = some true) := by
  have hh : ∀ (c : BloomFilter) (seed : Nat),
      _hash sha rep c x seed = _hash sha rep c y seed := by
    intro c seed
    unfold _hash
    rw [hrep]
  refine ⟨hh bf, ?_, ?_, ?_⟩
  · unfold add
    simp only [hh]
  · rw [contains, contains]
    exact containsAux_congr_hash (hh bf) _ _
  · intro hadd
    have h₁ := add_eq_some hadd
    apply contains_all_true
    intro i hi
    have hik : i < bf.hash_count := by
      rw [h₁.2.1] at hi
      exact hi
    obtain ⟨idx, hhx, hb⟩ := h₁.2.2.2.2.2 hik
    refine ⟨idx, ?_, hb⟩
    rw [← hh bf' i, _hash_congr_size h₁.1]
    exact hhx

/-- Witness for C10: two distinct `Nat` items whose repr stand-in collides;
after adding one, the other is contained. -/
theorem c10_repr_determines_hash_witness :
    contains shaC repN ⟨3, 1, [false, false, true], 1⟩ 1 = some true :=
  (c10_repr_determines_hash shaC repN ⟨3, 1, [false, false, false], 0⟩
    ⟨3, 1, [false, false, true], 1⟩ 0 1 rfl).2.2.2 (by decide)
